import Mathlib

/-!
Verification development for the `read_buffer` crate of this repository.

The crate's top level (`src/read_buffer/src/lib.rs`) defines `Store`,
`Database`, the helper `time_range_predicate`, and the query API.  The
`Store` methods (`new`, `add_database`, and the six query delegations) are
implemented there and are embedded faithfully below.  The submodules
`chunk`, `column`, `row_group` and `table`, as well as the bodies of
`Database`'s query methods and of `Store::remove_database`, are not present
in the tree (the latter are `todo!()` stubs), so those parts are modelled
from the specification; each such definition carries a doc comment starting
with `Modelled from the spec:`.
-/

namespace ReadBuffer

/-- Modelled from the spec: `column::Scalar`, the tagged union of column
value types (§3 "Value / Scalar").  The spec lists i64, f64, UTF-8 string
and boolean; the f64 variant is omitted because no embedded operation or
claim exercises floating point. -/
inductive Scalar where
  | I64 (v : Int)
  | Str (s : String)
  | Boolean (b : Bool)
deriving DecidableEq

/-- Modelled from the spec: `column::Value`, the literal operand of a
predicate.  The source file only ever builds `Value::Scalar`. -/
inductive Value where
  | Scalar (s : Scalar)
deriving DecidableEq

/-- Modelled from the spec: `column::cmp::Operator`, the comparison kinds
usable in a predicate (§3 "Operator"). -/
inductive Operator where
  | Equal
  | NotEqual
  | GT
  | GTE
  | LT
  | LTE
deriving DecidableEq

/-- Modelled from the spec: `row_group::ColumnName` (a column name). -/
abbrev ColumnName := String

/-- Modelled from the spec: `row_group::Predicate`, a pair of
(column name, (operator, value)); a predicate list is a conjunction. -/
abbrev Predicate := ColumnName × (Operator × Value)

/-- Modelled from the spec: `row_group::TIME_COLUMN_NAME`, the distinguished
time column. -/
def TIME_COLUMN_NAME : ColumnName := "time"

/-- Generate a predicate for the time range [lo, hi).
Embeds `time_range_predicate` from `src/read_buffer/src/lib.rs`. -/
def time_range_predicate (lo hi : Int) : List Predicate :=
  [ (TIME_COLUMN_NAME, (Operator.GTE, Value.Scalar (Scalar.I64 lo))),
    (TIME_COLUMN_NAME, (Operator.LT, Value.Scalar (Scalar.I64 hi))) ]

/-- Modelled from the spec: comparison of a cell value against a predicate
literal (§4.4).  Range operators are defined for integers (the time column
and numeric fields); tag (string) and boolean columns support the equality
operators, which is all the spec requires of them. -/
def Scalar.cmpWith (v : Scalar) (op : Operator) (lit : Scalar) : Bool :=
  match v, lit with
  | .I64 a, .I64 b =>
    match op with
    | .Equal => decide (a = b)
    | .NotEqual => decide (a ≠ b)
    | .GT => decide (b < a)
    | .GTE => decide (b ≤ a)
    | .LT => decide (a < b)
    | .LTE => decide (a ≤ b)
  | .Str a, .Str b =>
    match op with
    | .Equal => decide (a = b)
    | .NotEqual => decide (a ≠ b)
    | _ => false
  | .Boolean a, .Boolean b =>
    match op with
    | .Equal => decide (a = b)
    | .NotEqual => decide (a ≠ b)
    | _ => false
  | _, _ => false

/-- Modelled from the spec: a row of a row group, presented by column kind:
its time value, its tag (string) columns and its integer field columns
(§3 "RowGroup", flattened to rows for the row-level semantics the claims
quantify over). -/
structure Row where
  time : Int
  tags : List (String × String)
  fields : List (String × Int)
deriving DecidableEq

/-- First-match lookup in an association list (the semantics of a keyed
map such as `BTreeMap::get`, ignoring iteration order). -/
def afind {κ α : Type} [DecidableEq κ] : List (κ × α) → κ → Option α
  | [], _ => none
  | (k', v) :: rest, k => if k' = k then some v else afind rest k

/-- Insert-or-replace in an association list (the content semantics of
`BTreeMap::insert`). -/
def ainsert {κ α : Type} [DecidableEq κ] : List (κ × α) → κ → α → List (κ × α)
  | [], k, v => [(k, v)]
  | (k', v') :: rest, k, v =>
    if k' = k then (k, v) :: rest else (k', v') :: ainsert rest k v

/-- Key removal in an association list (the content semantics of
`BTreeMap::remove`). -/
def aremove {κ α : Type} [DecidableEq κ] : List (κ × α) → κ → List (κ × α)
  | [], _ => []
  | (k', v) :: rest, k =>
    if k' = k then aremove rest k else (k', v) :: aremove rest k

/-- Modelled from the spec: the value of a named column in a row: the time
column holds the row's timestamp, tag columns hold strings, field columns
hold integers (§3). -/
def Row.colScalar (r : Row) (c : ColumnName) : Option Scalar :=
  if c = TIME_COLUMN_NAME then some (.I64 r.time)
  else
    match afind r.tags c with
    | some s => some (.Str s)
    | none => (afind r.fields c).map .I64

/-- Modelled from the spec: whether a row satisfies one predicate (§3
"Predicate"); a predicate naming an absent column matches nothing. -/
def satisfiesP (r : Row) (p : Predicate) : Bool :=
  match p with
  | (c, (op, .Scalar lit)) =>
    match r.colScalar c with
    | some v => v.cmpWith op lit
    | none => false

/-- Modelled from the spec: a row survives a query when its time falls in
the half-open range [lo, hi) and it satisfies every predicate (§4.2). -/
def rowPasses (lo hi : Int) (preds : List Predicate) (r : Row) : Bool :=
  decide (lo ≤ r.time) && decide (r.time < hi) && preds.all (satisfiesP r)

/-- Modelled from the spec: one measurement's data within a chunk (§3
"Table"); row groups are flattened into their row sequence. -/
structure Table where
  rows : List Row
deriving DecidableEq

/-- Modelled from the spec: an immutable unit of ingested data containing
one table per measurement (§3 "Chunk"). -/
structure Chunk where
  tables : List (String × Table)
deriving DecidableEq

/-- All rows of a chunk, across its tables in order. -/
def Chunk.allRows (c : Chunk) : List Row :=
  (c.tables.map (fun e => e.2.rows)).flatten

/-- Minimum of the times of a list of rows, if any. -/
def minTimeOf : List Row → Option Int
  | [] => none
  | r :: rest =>
    match minTimeOf rest with
    | none => some r.time
    | some m => some (min r.time m)

/-- Maximum of the times of a list of rows, if any. -/
def maxTimeOf : List Row → Option Int
  | [] => none
  | r :: rest =>
    match maxTimeOf rest with
    | none => some r.time
    | some m => some (max r.time m)

/-- Modelled from the spec: a chunk's aggregate time range is derived from
its tables' rows (§3 "Chunk"). -/
def Chunk.minTime (c : Chunk) : Option Int := minTimeOf c.allRows

/-- Modelled from the spec: upper end of the chunk's aggregate time range. -/
def Chunk.maxTime (c : Chunk) : Option Int := maxTimeOf c.allRows

/-- Modelled from the spec: whether the chunk's aggregate time range
intersects the half-open query range [lo, hi) (§4.2 pruning); an empty
chunk has no range and is never a candidate. -/
def Chunk.overlapsRange (c : Chunk) (lo hi : Int) : Bool :=
  match c.minTime, c.maxTime with
  | some mn, some mx => decide (lo ≤ mx) && decide (mn < hi)
  | _, _ => false

/-- Modelled from the spec: `column::AggregateType`, the supported
aggregate functions (§3 "AggregateType"). -/
inductive AggregateType where
  | Count
  | Sum
  | Min
  | Max
  | First
  | Last
deriving DecidableEq

/-- Modelled from the spec: a partial aggregate state for one requested
(column, aggregate type) pair (§4.2 `aggregate`).  First/Last states carry
the timestamp of their candidate value alongside it. -/
inductive AggState where
  | count (n : Nat)
  | sum (x : Int)
  | minv (x : Int)
  | maxv (x : Int)
  | firstv (ts x : Int)
  | lastv (ts x : Int)
deriving DecidableEq

/-- The aggregate function a partial state belongs to. -/
def AggState.sortOf : AggState → AggregateType
  | .count _ => .Count
  | .sum _ => .Sum
  | .minv _ => .Min
  | .maxv _ => .Max
  | .firstv _ _ => .First
  | .lastv _ _ => .Last

/-- Modelled from the spec: the partial aggregate state of a single row
(time, value) for a given aggregate function. -/
def initState (t : AggregateType) (time v : Int) : AggState :=
  match t with
  | .Count => .count 1
  | .Sum => .sum v
  | .Min => .minv v
  | .Max => .maxv v
  | .First => .firstv time v
  | .Last => .lastv time v

/-- Modelled from the spec: merging two partial aggregate states of the
same aggregate function (§4.2, §5): Count/Sum add, Min/Max take the
extremum, and First/Last compare the carried timestamps and keep the
chronologically first/last candidate; a timestamp tie is broken by the
value (lexicographically), a deterministic choice the spec leaves open.
Merging states of different aggregate functions never happens in the
engine; such a merge keeps the left state. -/
def AggState.merge : AggState → AggState → AggState
  | .count n, .count m => .count (n + m)
  | .sum a, .sum b => .sum (a + b)
  | .minv a, .minv b => .minv (min a b)
  | .maxv a, .maxv b => .maxv (max a b)
  | .firstv ts1 v1, .firstv ts2 v2 =>
    if ts2 < ts1 ∨ (ts2 = ts1 ∧ v2 < v1) then .firstv ts2 v2 else .firstv ts1 v1
  | .lastv ts1 v1, .lastv ts2 v2 =>
    if ts1 < ts2 ∨ (ts1 = ts2 ∧ v1 < v2) then .lastv ts2 v2 else .lastv ts1 v1
  | a, _ => a

/-- Absorbing a row's (time, optional value) into an optional partial
state: rows where the aggregated column is absent leave the state alone. -/
def stepAgg (t : AggregateType) (s : Option AggState) (time : Int) (v : Option Int) :
    Option AggState :=
  match v with
  | none => s
  | some w =>
    match s with
    | none => some (initState t time w)
    | some a => some (a.merge (initState t time w))

/-- Merging two optional partial states. -/
def mergeStates : Option AggState → Option AggState → Option AggState
  | none, s => s
  | s, none => s
  | some a, some b => some (a.merge b)

/-- A requested aggregate: a column name paired with an aggregate type. -/
abbrev Aggregate := ColumnName × AggregateType

/-- A group key: the values of the group columns, plus the window start
time for windowed aggregation (`none` for plain aggregation). -/
abbrev GroupKey := List String × Option Int

/-- The vector of optional partial states for one group key, positionally
aligned with the requested aggregates. -/
abbrev AggStates := List (Option AggState)

/-- A mapping from group key to its vector of partial aggregate states,
in first-encounter order. -/
abbrev AggMap := List (GroupKey × AggStates)

/-- The value of a tag column in a row; a missing tag reads as the empty
string. -/
def Row.tagVal (r : Row) (c : String) : String :=
  (afind r.tags c).getD ""

/-- The value of an integer field column in a row, if present. -/
def Row.fieldVal (r : Row) (c : String) : Option Int :=
  afind r.fields c

/-- Absorbing one row into a vector of partial states, positionally per
requested aggregate. -/
def updStates (aggs : List Aggregate) (ss : AggStates) (r : Row) : AggStates :=
  List.zipWith (fun (ct : Aggregate) s => stepAgg ct.2 s r.time (r.fieldVal ct.1)) aggs ss

/-- The empty state vector for a list of requested aggregates. -/
def noStates (aggs : List Aggregate) : AggStates :=
  aggs.map (fun _ => none)

/-- Lookup of a group key in an aggregation map. -/
def AggMap.find : AggMap → GroupKey → Option AggStates
  | [], _ => none
  | (k', ss) :: rest, k => if k' = k then some ss else AggMap.find rest k

/-- Modelled from the spec: absorbing one row into a chunk's local
aggregation map: the row's group key is updated in place, or appended with
a fresh state vector on first encounter (§4.2 `aggregate`). -/
def AggMap.step (gk : Row → GroupKey) (aggs : List Aggregate) : AggMap → Row → AggMap
  | [], r => [(gk r, updStates aggs (noStates aggs) r)]
  | (k, ss) :: rest, r =>
    if k = gk r then (k, updStates aggs ss r) :: rest
    else (k, ss) :: AggMap.step gk aggs rest r

/-- Modelled from the spec: a chunk's local map from group key to partial
aggregate states, computed over its surviving rows (§4.2 `aggregate`). -/
def chunkAgg (gk : Row → GroupKey) (aggs : List Aggregate) (rows : List Row) : AggMap :=
  rows.foldl (AggMap.step gk aggs) []

/-- Modelled from the spec: merging one (group key, states) entry of a
chunk's map into the accumulated map: states of an existing key are merged
pointwise, a new key is appended (§4.2 merge step). -/
def AggMap.mergeEntry : AggMap → GroupKey × AggStates → AggMap
  | [], e => [e]
  | (k, ss) :: rest, e =>
    if k = e.1 then (k, List.zipWith mergeStates ss e.2) :: rest
    else (k, ss) :: AggMap.mergeEntry rest e

/-- Modelled from the spec: merging a whole chunk map into the accumulated
map (§4.2 merge step). -/
def AggMap.merge (m1 m2 : AggMap) : AggMap :=
  m2.foldl AggMap.mergeEntry m1

/-- Whether the keys of an aggregation map are pairwise distinct. -/
def keysDistinct : AggMap → Bool
  | [] => true
  | (k, _) :: rest => rest.all (fun e => decide (e.1 ≠ k)) && keysDistinct rest

/-- A database is scoped to a single tenant; it holds the collection of
chunks, keyed by chunk key, and its current total size.  Embeds the
`Database` struct of `src/read_buffer/src/lib.rs` (the `size()` method is
the field accessor). -/
structure Database where
  chunks : List (String × Chunk)
  size : Nat
deriving DecidableEq

/-- Modelled from the spec: the candidate chunks of a query: those whose
aggregate time range intersects the query range, in chunk-key order;
chunks wholly outside the range are skipped (§4.2). -/
def Database.candidates (db : Database) (lo hi : Int) : List Chunk :=
  (db.chunks.map Prod.snd).filter (fun c => c.overlapsRange lo hi)

/-- Modelled from the spec: the surviving rows a chunk contributes to a
query on one table: the rows of its table of that name (none, if absent)
that pass the time range and predicates (§4.2). -/
def chunkSurvivors (c : Chunk) (table : String) (lo hi : Int)
    (preds : List Predicate) : List Row :=
  match afind c.tables table with
  | none => []
  | some t => t.rows.filter (rowPasses lo hi preds)

/-- Modelled from the spec: all surviving rows of a query across every
chunk of the database, in chunk order (§4.2). -/
def Database.survivors (db : Database) (table : String) (lo hi : Int)
    (preds : List Predicate) : List Row :=
  ((db.chunks.map Prod.snd).map (fun c => chunkSurvivors c table lo hi preds)).flatten

/-- Modelled from the spec: `Database::select` (its body is `todo!()` in
the source): project the selected columns of each candidate chunk's
surviving rows and append the per-chunk results in encounter order
(§4.2 `select`).  Query errors (unknown predicate columns) are outside the
modelled scope, so the result is always `some`. -/
def Database.select (db : Database) (table : String) (timeRange : Int × Int)
    (preds : List Predicate) (selectColumns : List String) :
    Option (List (List (Option Scalar))) :=
  some (((db.candidates timeRange.1 timeRange.2).map
    (fun c => (chunkSurvivors c table timeRange.1 timeRange.2 preds).map
      (fun r => selectColumns.map r.colScalar))).flatten)

/-- Modelled from the spec: the shared core of `aggregate` and
`aggregate_window`: compute each candidate chunk's local map over its
surviving rows, then merge the chunk maps in order (§4.2). -/
def aggCore (db : Database) (table : String) (timeRange : Int × Int)
    (preds : List Predicate) (gk : Row → GroupKey) (aggs : List Aggregate) : AggMap :=
  (((db.candidates timeRange.1 timeRange.2).map
    (fun c => chunkAgg gk aggs (chunkSurvivors c table timeRange.1 timeRange.2 preds)))).foldl
    AggMap.merge []

/-- Modelled from the spec: the group key of a row for plain aggregation:
the row's values of the group columns (§4.2 `aggregate`). -/
def plainKey (groupColumns : List String) (r : Row) : GroupKey :=
  (groupColumns.map r.tagVal, none)

/-- Modelled from the spec: the group key of a row for windowed
aggregation: the plain key extended with the window start
`time - (time mod window)` (§4.2 `aggregate_window`). -/
def windowKey (groupColumns : List String) (window : Int) (r : Row) : GroupKey :=
  (groupColumns.map r.tagVal, some (r.time - r.time % window))

/-- Modelled from the spec: `Database::aggregate` (its body is `todo!()`
in the source): per-chunk partial aggregation over surviving rows followed
by a merge of the chunk maps, one output row per merged group key
(§4.2 `aggregate`). -/
def Database.aggregate (db : Database) (table : String) (timeRange : Int × Int)
    (preds : List Predicate) (groupColumns : List String) (aggs : List Aggregate) :
    Option AggMap :=
  some (aggCore db table timeRange preds (plainKey groupColumns) aggs)

/-- Modelled from the spec: `Database::aggregate_window` (its body is
`todo!()` in the source): identical to `aggregate` except the group key is
extended with the window start; a non-positive window is an error
(§4.2 `aggregate_window`). -/
def Database.aggregate_window (db : Database) (table : String) (timeRange : Int × Int)
    (preds : List Predicate) (groupColumns : List String) (aggs : List Aggregate)
    (window : Int) : Option AggMap :=
  if window ≤ 0 then none
  else some (aggCore db table timeRange preds (windowKey groupColumns window) aggs)

/-- Folding a list to its set of distinct elements in first-encounter
order. -/
def insertNew {α : Type} [DecidableEq α] (l : List α) (x : α) : List α :=
  if x ∈ l then l else l ++ [x]

/-- Distinct elements of a list in first-encounter order. -/
def dedupKeep {α : Type} [DecidableEq α] (l : List α) : List α :=
  l.foldl insertNew []

/-- Modelled from the spec: `Database::table_names` (its body is `todo!()`
in the source): the distinct names of tables that hold at least one
surviving row in some candidate chunk (§4.2 `table_names`).  The unused
first parameter mirrors the source signature. -/
def Database.table_names (db : Database) (databaseName : String)
    (timeRange : Int × Int) (preds : List Predicate) : Option (List String) :=
  some (dedupKeep (((db.candidates timeRange.1 timeRange.2).map
    (fun c => (c.tables.filter
      (fun e => !(e.2.rows.filter (rowPasses timeRange.1 timeRange.2 preds)).isEmpty)).map
      Prod.fst)).flatten))

/-- Modelled from the spec: `Database::tag_keys` (its body is `todo!()` in
the source): the distinct tag column names appearing in surviving rows of
the named table across candidate chunks (§4.2 `tag_keys`). -/
def Database.tag_keys (db : Database) (table : String) (timeRange : Int × Int)
    (preds : List Predicate) : Option (List String) :=
  some (dedupKeep (((db.candidates timeRange.1 timeRange.2).map
    (fun c => ((chunkSurvivors c table timeRange.1 timeRange.2 preds).map
      (fun r => r.tags.map Prod.fst)).flatten)).flatten))

/-- Modelled from the spec: `Database::tag_values` (its body is `todo!()`
in the source): for each requested tag key (or every present tag key when
the request is empty) the distinct values appearing in surviving rows
(§4.2 `tag_values`). -/
def Database.tag_values (db : Database) (table : String) (timeRange : Int × Int)
    (preds : List Predicate) (tagKeys : List String) : Option (List (String × List String)) :=
  let surv := db.survivors table timeRange.1 timeRange.2 preds
  let keys := if tagKeys.isEmpty
    then dedupKeep ((surv.map (fun r => r.tags.map Prod.fst)).flatten)
    else tagKeys
  some (keys.map (fun k => (k, dedupKeep (surv.filterMap (fun r => afind r.tags k)))))

/-- The `Store` is responsible for providing an execution engine for
reading `Chunk` data.  Embeds the `Store` struct of
`src/read_buffer/src/lib.rs`: a mapping from database name to database,
plus the current total size of the store. -/
structure Store where
  databases : List (String × Database)
  size : Nat
deriving DecidableEq

/-- Embeds `Store::new` (which is `Self::default()`): empty databases map
and size 0. -/
def Store.new : Store :=
  { databases := [], size := 0 }

/-- Add a new database to the store.  Embeds `Store::add_database`:
`self.size += database.size(); self.databases.insert(id, database)`. -/
def Store.add_database (s : Store) (id : String) (database : Database) : Store :=
  { databases := ainsert s.databases id database, size := s.size + database.size }

/-- The error kinds of the store layer (spec §7). -/
inductive StoreError where
  | NotFound
deriving DecidableEq

/-- Modelled from the spec: `Store::remove_database` (its body is
`todo!()` in the source): removes a database and subtracts its size; fails
with NotFound if the id is absent (§4.1). -/
def Store.remove_database (s : Store) (id : String) : Except StoreError Store :=
  match afind s.databases id with
  | none => .error .NotFound
  | some db =>
    .ok { databases := aremove s.databases id, size := s.size - db.size }

/-- Executes selections against matching chunks.  Embeds `Store::select`:
look up the named database and delegate, otherwise return `None`. -/
def Store.select (s : Store) (databaseName tableName : String) (timeRange : Int × Int)
    (preds : List Predicate) (selectColumns : List String) :
    Option (List (List (Option Scalar))) :=
  match afind s.databases databaseName with
  | some db => db.select tableName timeRange preds selectColumns
  | none => none

/-- Embeds `Store::aggregate`: look up the named database and delegate,
otherwise return `None`. -/
def Store.aggregate (s : Store) (databaseName tableName : String) (timeRange : Int × Int)
    (preds : List Predicate) (groupColumns : List String) (aggs : List Aggregate) :
    Option AggMap :=
  match afind s.databases databaseName with
  | some db => db.aggregate tableName timeRange preds groupColumns aggs
  | none => none

/-- Embeds `Store::aggregate_window`: look up the named database and
delegate, otherwise return `None`. -/
def Store.aggregate_window (s : Store) (databaseName tableName : String)
    (timeRange : Int × Int) (preds : List Predicate) (groupColumns : List String)
    (aggs : List Aggregate) (window : Int) : Option AggMap :=
  match afind s.databases databaseName with
  | some db => db.aggregate_window tableName timeRange preds groupColumns aggs window
  | none => none

/-- Embeds `Store::table_names`: look up the named database and delegate
(the source passes `database_name` through), otherwise return `None`. -/
def Store.table_names (s : Store) (databaseName : String) (timeRange : Int × Int)
    (preds : List Predicate) : Option (List String) :=
  match afind s.databases databaseName with
  | some db => db.table_names databaseName timeRange preds
  | none => none

/-- Embeds `Store::tag_keys`: look up the named database and delegate,
otherwise return `None`. -/
def Store.tag_keys (s : Store) (databaseName tableName : String) (timeRange : Int × Int)
    (preds : List Predicate) : Option (List String) :=
  match afind s.databases databaseName with
  | some db => db.tag_keys tableName timeRange preds
  | none => none

/-- Embeds `Store::tag_values`: look up the named database and delegate,
otherwise return `None`. -/
def Store.tag_values (s : Store) (databaseName tableName : String) (timeRange : Int × Int)
    (preds : List Predicate) (tagKeys : List String) : Option (List (String × List String)) :=
  match afind s.databases databaseName with
  | some db => db.tag_values tableName timeRange preds tagKeys
  | none => none

/-- C3: each of the six Store query operations looks up the named
database: when the name is absent the operation returns `none` (the
no-such-database result), and when it is present the operation returns
exactly what the resolved database's corresponding method returns on the
same remaining parameters; a present database always answers `some`
(aggregate_window: for a positive window), so `none` is distinguishable
from a present database matching zero rows. -/
theorem claim_C3 (s : Store) (dbn tn : String) (tr : Int × Int)
    (preds : List Predicate) (cols g : List String) (aggs : List Aggregate)
    (w : Int) (tks : List String) :
    (afind s.databases dbn = none →
      s.select dbn tn tr preds cols = none ∧
      s.aggregate dbn tn tr preds g aggs = none ∧
      s.aggregate_window dbn tn tr preds g aggs w = none ∧
      s.table_names dbn tr preds = none ∧
      s.tag_keys dbn tn tr preds = none ∧
      s.tag_values dbn tn tr preds tks = none) ∧
    (∀ db : Database, afind s.databases dbn = some db →
      s.select dbn tn tr preds cols = db.select tn tr preds cols ∧
      s.aggregate dbn tn tr preds g aggs = db.aggregate tn tr preds g aggs ∧
      s.aggregate_window dbn tn tr preds g aggs w =
        db.aggregate_window tn tr preds g aggs w ∧
      s.table_names dbn tr preds = db.table_names dbn tr preds ∧
      s.tag_keys dbn tn tr preds = db.tag_keys tn tr preds ∧
      s.tag_values dbn tn tr preds tks = db.tag_values tn tr preds tks ∧
      (db.select tn tr preds cols).isSome = true ∧
      (db.aggregate tn tr preds g aggs).isSome = true ∧
      (db.table_names dbn tr preds).isSome = true ∧
      (db.tag_keys tn tr preds).isSome = true ∧
      (db.tag_values tn tr preds tks).isSome = true ∧
      (0 < w → (db.aggregate_window tn tr preds g aggs w).isSome = true)) := by
  constructor
  · intro h
    refine ⟨?_, ?_, ?_, ?_, ?_, ?_⟩ <;>
      simp only [Store.select, Store.aggregate, Store.aggregate_window,
        Store.table_names, Store.tag_keys, Store.tag_values, h]
  · intro db h
    refine ⟨?_, ?_, ?_, ?_, ?_, ?_, rfl, rfl, rfl, rfl, rfl, ?_⟩
    · simp only [Store.select, h]
    · simp only [Store.aggregate, h]
    · simp only [Store.aggregate_window, h]
    · simp only [Store.table_names, h]
    · simp only [Store.tag_keys, h]
    · simp only [Store.tag_values, h]
    · intro hw
      unfold Database.aggregate_window
      rw [if_neg (not_le.mpr hw)]
      rfl

/-- Witness for C3 at concrete stores: the absent-name leg on a fresh
store, and the present-name leg (delegation plus a `some` answer from a
present database with no matching rows, including a positive window). -/
theorem claim_C3_witness :
    Store.new.select "d" "t" (0, 1) [] [] = none ∧
    (Store.new.add_database "d" ⟨[], 0⟩).select "d" "t" (0, 1) [] [] =
      Database.select ⟨[], 0⟩ "t" (0, 1) [] [] ∧
    (Database.select ⟨[], 0⟩ "t" (0, 1) [] []).isSome = true ∧
    (Database.aggregate_window ⟨[], 0⟩ "t" (0, 1) [] [] [] 1).isSome = true := by
  have habs := (claim_C3 Store.new "d" "t" (0, 1) [] [] [] [] 1 []).1 rfl
  have hpres := (claim_C3 (Store.new.add_database "d" ⟨[], 0⟩) "d" "t" (0, 1)
    [] [] [] [] 1 []).2 ⟨[], 0⟩ rfl
  exact ⟨habs.1, hpres.1, hpres.2.2.2.2.2.2.1,
    hpres.2.2.2.2.2.2.2.2.2.2.2 (by norm_num)⟩

/-- The sum of the sizes of the databases in a store's map. -/
def sizesTotal : List (String × Database) → Nat
  | [] => 0
  | e :: rest => e.2.size + sizesTotal rest

/-- Absorbing one row into the optional state vector of its group: an
absent group starts from the empty state vector. -/
def stepOpt (aggs : List Aggregate) (s : Option AggStates) (r : Row) : Option AggStates :=
  some (updStates aggs (s.getD (noStates aggs)) r)

/-- Merging the optional state vectors of one group key coming from two
chunk maps. -/
def mergeOptStates : Option AggStates → Option AggStates → Option AggStates
  | none, s => s
  | s, none => s
  | some a, some b => some (List.zipWith mergeStates a b)

/-- Single-pass reference semantics, written from the claim: the value
obtained for group key `k` by aggregating, in one pass, all rows of that
group key (`none` when the key never occurs). -/
def singlePass (gk : Row → GroupKey) (aggs : List Aggregate) (rows : List Row)
    (k : GroupKey) : Option AggStates :=
  (rows.filter (fun r => decide (gk r = k))).foldl (stepOpt aggs) none

section Lemmas

lemma afind_ainsert_self {κ α : Type} [DecidableEq κ] (m : List (κ × α)) (k : κ) (v : α) :
    afind (ainsert m k v) k = some v := by
  induction m with
  | nil => simp [ainsert, afind]
  | cons e rest ih =>
    by_cases h : e.1 = k
    · simp [ainsert, afind, h]
    · obtain ⟨k', v'⟩ := e
      simp only at h
      simp [ainsert, afind, h, ih]

lemma afind_aremove_self {κ α : Type} [DecidableEq κ] (m : List (κ × α)) (k : κ) :
    afind (aremove m k) k = none := by
  induction m with
  | nil => simp [aremove, afind]
  | cons e rest ih =>
    obtain ⟨k1, v1⟩ := e
    by_cases h : k1 = k
    · simpa [aremove, h] using ih
    · simpa [aremove, h, afind] using ih

lemma afind_aremove_other {κ α : Type} [DecidableEq κ] (m : List (κ × α)) (k k' : κ)
    (h : k' ≠ k) : afind (aremove m k) k' = afind m k' := by
  induction m with
  | nil => simp [aremove, afind]
  | cons e rest ih =>
    obtain ⟨k1, v1⟩ := e
    by_cases he : k1 = k
    · subst he
      have h1 : k1 ≠ k' := fun hc => h hc.symm
      simpa [aremove, afind, h1] using ih
    · by_cases he' : k1 = k'
      · subst he'
        simp [aremove, he, afind]
      · simpa [aremove, he, afind, he'] using ih

/-- A partial state belongs to the aggregate function `t` (vacuously true
for the absent state). -/
def okState (t : AggregateType) (s : Option AggState) : Prop :=
  ∀ a : AggState, s = some a → a.sortOf = t

/-- A state vector is positionally aligned with the requested aggregates
and each state belongs to its aggregate's function. -/
def okStates : List Aggregate → AggStates → Prop
  | [], [] => True
  | ct :: aggs, s :: ss => okState ct.2 s ∧ okStates aggs ss
  | _, _ => False

/-- Well-formedness of an optional state vector. -/
def okOpt (aggs : List Aggregate) : Option AggStates → Prop
  | none => True
  | some ss => okStates aggs ss

lemma okState_none (t : AggregateType) : okState t none :=
  fun _ h => nomatch h

lemma sortOf_initState (t : AggregateType) (time v : Int) :
    (initState t time v).sortOf = t := by
  cases t <;> rfl

lemma sortOf_merge (a b : AggState) : (a.merge b).sortOf = a.sortOf := by
  cases a <;> cases b <;> simp only [AggState.merge, AggState.sortOf] <;>
    split_ifs <;> rfl

lemma okState_stepAgg (t : AggregateType) (s : Option AggState) (time : Int)
    (v : Option Int) (h : okState t s) : okState t (stepAgg t s time v) := by
  cases v with
  | none => exact h
  | some w =>
    cases s with
    | none =>
      intro a ha
      simp only [stepAgg, Option.some.injEq] at ha
      rw [← ha]
      exact sortOf_initState t time w
    | some x =>
      intro a ha
      simp only [stepAgg, Option.some.injEq] at ha
      rw [← ha, sortOf_merge]
      exact h x rfl

lemma okState_mergeStates (t : AggregateType) (a b : Option AggState)
    (ha : okState t a) (hb : okState t b) : okState t (mergeStates a b) := by
  cases a with
  | none => cases b <;> exact hb
  | some x =>
    cases b with
    | none => exact ha
    | some y =>
      intro z hz
      simp only [mergeStates, Option.some.injEq] at hz
      rw [← hz, sortOf_merge]
      exact ha x rfl

lemma merge_assoc (a b c : AggState) (h1 : a.sortOf = b.sortOf)
    (h2 : b.sortOf = c.sortOf) : (a.merge b).merge c = a.merge (b.merge c) := by
  cases a <;> cases b <;>
    (try (simp only [AggState.sortOf] at h1; exact absurd h1 (by decide))) <;>
    cases c <;>
    (try (simp only [AggState.sortOf] at h2; exact absurd h2 (by decide))) <;>
    clear h1 h2 <;>
    simp only [AggState.merge] <;>
    first
      | (apply congrArg; omega)
      | (apply congrArg; exact min_assoc _ _ _)
      | (apply congrArg; exact max_assoc _ _ _)
      | (split_ifs <;> simp only [AggState.merge] <;> (try split_ifs) <;>
          first
            | rfl
            | (simp only [AggState.firstv.injEq, AggState.lastv.injEq]; omega))

lemma mergeStates_stepAgg (t : AggregateType) (a b : Option AggState)
    (ha : okState t a) (hb : okState t b) (time : Int) (v : Option Int) :
    mergeStates a (stepAgg t b time v) = stepAgg t (mergeStates a b) time v := by
  cases v with
  | none => cases a <;> cases b <;> rfl
  | some w =>
    cases a with
    | none => cases b <;> rfl
    | some x =>
      cases b with
      | none => rfl
      | some y =>
        have hx : x.sortOf = y.sortOf := (ha x rfl).trans (hb y rfl).symm
        have hy : y.sortOf = (initState t time w).sortOf :=
          (hb y rfl).trans (sortOf_initState t time w).symm
        simp only [stepAgg, mergeStates, Option.some.injEq]
        exact (merge_assoc x y (initState t time w) hx hy).symm

lemma okStates_noStates (aggs : List Aggregate) : okStates aggs (noStates aggs) := by
  induction aggs with
  | nil => trivial
  | cons ct aggs ih => exact ⟨okState_none ct.2, ih⟩

lemma okStates_updStates (aggs : List Aggregate) (ss : AggStates) (r : Row)
    (h : okStates aggs ss) : okStates aggs (updStates aggs ss r) := by
  induction aggs generalizing ss with
  | nil =>
    cases ss with
    | nil => trivial
    | cons s ss => exact h.elim
  | cons ct aggs ih =>
    cases ss with
    | nil => exact h.elim
    | cons s ss =>
      obtain ⟨h1, h2⟩ := h
      exact ⟨okState_stepAgg ct.2 s r.time (r.fieldVal ct.1) h1, ih ss h2⟩

lemma okStates_zip_mergeStates (aggs : List Aggregate) (ss1 ss2 : AggStates)
    (h1 : okStates aggs ss1) (h2 : okStates aggs ss2) :
    okStates aggs (List.zipWith mergeStates ss1 ss2) := by
  induction aggs generalizing ss1 ss2 with
  | nil =>
    cases ss1 with
    | nil => cases ss2 with
      | nil => trivial
      | cons s ss => exact h2.elim
    | cons s ss => exact h1.elim
  | cons ct aggs ih =>
    cases ss1 with
    | nil => exact h1.elim
    | cons s1 t1 =>
      cases ss2 with
      | nil => exact h2.elim
      | cons s2 t2 =>
        obtain ⟨ha, hb⟩ := h1
        obtain ⟨hc, hd⟩ := h2
        exact ⟨okState_mergeStates ct.2 s1 s2 ha hc, ih t1 t2 hb hd⟩

lemma zip_mergeStates_updStates (aggs : List Aggregate) (ss1 ss2 : AggStates) (r : Row)
    (h1 : okStates aggs ss1) (h2 : okStates aggs ss2) :
    List.zipWith mergeStates ss1 (updStates aggs ss2 r) =
      updStates aggs (List.zipWith mergeStates ss1 ss2) r := by
  induction aggs generalizing ss1 ss2 with
  | nil =>
    cases ss1 with
    | nil => rfl
    | cons s ss => exact h1.elim
  | cons ct aggs ih =>
    cases ss1 with
    | nil => exact h1.elim
    | cons s1 t1 =>
      cases ss2 with
      | nil => exact h2.elim
      | cons s2 t2 =>
        obtain ⟨ha, hb⟩ := h1
        obtain ⟨hc, hd⟩ := h2
        simp only [updStates, List.zipWith_cons_cons]
        rw [← updStates, ← updStates]
        rw [mergeStates_stepAgg ct.2 s1 s2 ha hc, ih t1 t2 hb hd]

lemma zip_mergeStates_noStates (aggs : List Aggregate) (ss : AggStates)
    (h : okStates aggs ss) : List.zipWith mergeStates ss (noStates aggs) = ss := by
  induction aggs generalizing ss with
  | nil =>
    cases ss with
    | nil => rfl
    | cons s t => exact h.elim
  | cons ct aggs ih =>
    cases ss with
    | nil => exact h.elim
    | cons s t =>
      obtain ⟨h1, h2⟩ := h
      simp only [noStates, List.map_cons, List.zipWith_cons_cons]
      rw [show mergeStates s none = s from by cases s <;> rfl]
      rw [show (List.map (fun _ => (none : Option AggState)) aggs) = noStates aggs from rfl]
      rw [ih t h2]

lemma okOpt_stepOpt (aggs : List Aggregate) (s : Option AggStates) (r : Row)
    (h : okOpt aggs s) : okOpt aggs (stepOpt aggs s r) := by
  cases s with
  | none => exact okStates_updStates aggs (noStates aggs) r (okStates_noStates aggs)
  | some ss => exact okStates_updStates aggs ss r h

lemma okOpt_mergeOptStates (aggs : List Aggregate) (s1 s2 : Option AggStates)
    (h1 : okOpt aggs s1) (h2 : okOpt aggs s2) : okOpt aggs (mergeOptStates s1 s2) := by
  cases s1 with
  | none => cases s2 <;> exact h2
  | some ss1 =>
    cases s2 with
    | none => exact h1
    | some ss2 => exact okStates_zip_mergeStates aggs ss1 ss2 h1 h2

lemma mergeOpt_none_right (s : Option AggStates) : mergeOptStates s none = s := by
  cases s <;> rfl

lemma mergeOpt_stepOpt (aggs : List Aggregate) (s1 s2 : Option AggStates) (r : Row)
    (h1 : okOpt aggs s1) (h2 : okOpt aggs s2) :
    mergeOptStates s1 (stepOpt aggs s2 r) = stepOpt aggs (mergeOptStates s1 s2) r := by
  cases s1 with
  | none => cases s2 <;> rfl
  | some ss1 =>
    cases s2 with
    | none =>
      simp only [stepOpt, mergeOptStates, Option.getD, Option.some.injEq]
      rw [zip_mergeStates_updStates aggs ss1 (noStates aggs) r h1 (okStates_noStates aggs)]
      rw [zip_mergeStates_noStates aggs ss1 h1]
    | some ss2 =>
      simp only [stepOpt, mergeOptStates, Option.getD, Option.some.injEq]
      exact zip_mergeStates_updStates aggs ss1 ss2 r h1 h2

lemma okOpt_foldl_stepOpt (aggs : List Aggregate) (l : List Row) (s : Option AggStates)
    (h : okOpt aggs s) : okOpt aggs (l.foldl (stepOpt aggs) s) := by
  induction l generalizing s with
  | nil => exact h
  | cons r l ih => exact ih (stepOpt aggs s r) (okOpt_stepOpt aggs s r h)

lemma mergeOpt_foldl_stepOpt (aggs : List Aggregate) (l : List Row)
    (s1 s2 : Option AggStates) (h1 : okOpt aggs s1) (h2 : okOpt aggs s2) :
    mergeOptStates s1 (l.foldl (stepOpt aggs) s2) =
      l.foldl (stepOpt aggs) (mergeOptStates s1 s2) := by
  induction l generalizing s2 with
  | nil => rfl
  | cons r l ih =>
    simp only [List.foldl_cons]
    rw [ih (stepOpt aggs s2 r) (okOpt_stepOpt aggs s2 r h2),
      mergeOpt_stepOpt aggs s1 s2 r h1 h2]

lemma okOpt_singlePass (gk : Row → GroupKey) (aggs : List Aggregate) (rows : List Row)
    (k : GroupKey) : okOpt aggs (singlePass gk aggs rows k) :=
  okOpt_foldl_stepOpt aggs _ none trivial

lemma singlePass_append (gk : Row → GroupKey) (aggs : List Aggregate)
    (rs1 rs2 : List Row) (k : GroupKey) :
    singlePass gk aggs (rs1 ++ rs2) k =
      mergeOptStates (singlePass gk aggs rs1 k) (singlePass gk aggs rs2 k) := by
  unfold singlePass
  rw [List.filter_append, List.foldl_append]
  rw [mergeOpt_foldl_stepOpt aggs _ _ none (okOpt_foldl_stepOpt aggs _ none trivial) trivial]
  rw [mergeOpt_none_right]

lemma foldl_mergeOpt_singlePass (gk : Row → GroupKey) (aggs : List Aggregate)
    (k : GroupKey) (cs : List (List Row)) (rs0 : List Row) :
    cs.foldl (fun s rows => mergeOptStates s (singlePass gk aggs rows k))
        (singlePass gk aggs rs0 k) =
      singlePass gk aggs (rs0 ++ cs.flatten) k := by
  induction cs generalizing rs0 with
  | nil => simp
  | cons rows cs ih =>
    simp only [List.foldl_cons]
    rw [← singlePass_append gk aggs rs0 rows k, ih (rs0 ++ rows), List.flatten_cons,
      List.append_assoc]

lemma find_step (gk : Row → GroupKey) (aggs : List Aggregate) (m : AggMap) (r : Row)
    (k : GroupKey) :
    (AggMap.step gk aggs m r).find k =
      if gk r = k then stepOpt aggs (m.find k) r else m.find k := by
  induction m with
  | nil =>
    by_cases h : gk r = k <;> simp [AggMap.step, AggMap.find, h, stepOpt]
  | cons e rest ih =>
    obtain ⟨k', ss⟩ := e
    by_cases h1 : k' = gk r
    · by_cases h2 : k' = k
      · have hg : gk r = k := h1.symm.trans h2
        simp only [AggMap.step, AggMap.find, if_pos h1, if_pos h2, if_pos hg,
          stepOpt, Option.getD_some]
      · have hg : ¬ gk r = k := fun hc => h2 (h1.trans hc)
        simp only [AggMap.step, AggMap.find, if_pos h1, if_neg h2, if_neg hg]
    · by_cases h2 : k' = k
      · have hg : ¬ gk r = k := fun hc => h1 (h2.trans hc.symm)
        simp only [AggMap.step, AggMap.find, if_neg h1, if_pos h2, if_neg hg]
      · simp only [AggMap.step, AggMap.find, if_neg h1, if_neg h2]
        exact ih

lemma find_foldl_step (gk : Row → GroupKey) (aggs : List Aggregate) (rows : List Row)
    (m : AggMap) (k : GroupKey) :
    ((rows.foldl (AggMap.step gk aggs) m).find k) =
      (rows.filter (fun r => decide (gk r = k))).foldl (stepOpt aggs) (m.find k) := by
  induction rows generalizing m with
  | nil => rfl
  | cons r rows ih =>
    simp only [List.foldl_cons]
    rw [ih (AggMap.step gk aggs m r)]
    by_cases h : gk r = k
    · simp [List.filter_cons, h, find_step]
    · simp [List.filter_cons, h, find_step]

lemma find_chunkAgg (gk : Row → GroupKey) (aggs : List Aggregate) (rows : List Row)
    (k : GroupKey) : (chunkAgg gk aggs rows).find k = singlePass gk aggs rows k := by
  unfold chunkAgg singlePass
  exact find_foldl_step gk aggs rows [] k

lemma find_mergeEntry (m : AggMap) (e : GroupKey × AggStates) (k : GroupKey) :
    (AggMap.mergeEntry m e).find k =
      if e.1 = k then mergeOptStates (m.find k) (some e.2) else m.find k := by
  induction m with
  | nil =>
    by_cases h : e.1 = k <;>
      simp [AggMap.mergeEntry, AggMap.find, h, mergeOptStates]
  | cons x rest ih =>
    obtain ⟨k', ss⟩ := x
    by_cases h1 : k' = e.1
    · by_cases h2 : k' = k
      · have hg : e.1 = k := h1.symm.trans h2
        simp only [AggMap.mergeEntry, AggMap.find, if_pos h1, if_pos h2, if_pos hg,
          mergeOptStates]
      · have hg : ¬ e.1 = k := fun hc => h2 (h1.trans hc)
        simp only [AggMap.mergeEntry, AggMap.find, if_pos h1, if_neg h2, if_neg hg]
    · by_cases h2 : k' = k
      · have hg : ¬ e.1 = k := fun hc => h1 (h2.trans hc.symm)
        simp only [AggMap.mergeEntry, AggMap.find, if_neg h1, if_pos h2, if_neg hg]
      · simp only [AggMap.mergeEntry, AggMap.find, if_neg h1, if_neg h2]
        exact ih

lemma find_eq_none_of_all (m : AggMap) (k : GroupKey)
    (h : m.all (fun e => decide (e.1 ≠ k)) = true) : m.find k = none := by
  induction m with
  | nil => rfl
  | cons e rest ih =>
    simp only [List.all_cons, Bool.and_eq_true, decide_eq_true_eq] at h
    obtain ⟨h1, h2⟩ := h
    simp [AggMap.find, h1, ih h2]

lemma find_merge (m1 m2 : AggMap) (k : GroupKey) (h : keysDistinct m2 = true) :
    (AggMap.merge m1 m2).find k = mergeOptStates (m1.find k) (m2.find k) := by
  induction m2 generalizing m1 with
  | nil =>
    simp [AggMap.merge, AggMap.find, mergeOpt_none_right]
  | cons e rest ih =>
    obtain ⟨ke, sse⟩ := e
    simp only [keysDistinct, Bool.and_eq_true] at h
    obtain ⟨hall, hrest⟩ := h
    have hunf : AggMap.merge m1 ((ke, sse) :: rest) =
        AggMap.merge (AggMap.mergeEntry m1 (ke, sse)) rest := rfl
    rw [hunf, ih (AggMap.mergeEntry m1 (ke, sse)) hrest, find_mergeEntry]
    by_cases he : ke = k
    · have hnone : AggMap.find rest k = none := by
        apply find_eq_none_of_all
        rw [← he]
        exact hall
      simp only [AggMap.find, if_pos he, hnone, mergeOpt_none_right]
    · simp only [AggMap.find, if_neg he]

lemma find_foldl_merge (ms : List AggMap) (m0 : AggMap) (k : GroupKey)
    (h : ∀ m ∈ ms, keysDistinct m = true) :
    ((ms.foldl AggMap.merge m0).find k) =
      ms.foldl (fun s m => mergeOptStates s (m.find k)) (m0.find k) := by
  induction ms generalizing m0 with
  | nil => rfl
  | cons m ms ih =>
    simp only [List.foldl_cons]
    rw [ih (AggMap.merge m0 m) (fun x hx => h x (List.mem_cons_of_mem m hx)),
      find_merge m0 m k (h m (List.mem_cons_self m ms))]

lemma step_all (gk : Row → GroupKey) (aggs : List Aggregate) (m : AggMap) (r : Row)
    (k : GroupKey) (hm : m.all (fun e => decide (e.1 ≠ k)) = true) (hr : gk r ≠ k) :
    (AggMap.step gk aggs m r).all (fun e => decide (e.1 ≠ k)) = true := by
  induction m with
  | nil => simp [AggMap.step, hr]
  | cons e rest ih =>
    obtain ⟨k', ss⟩ := e
    simp only [List.all_cons, Bool.and_eq_true, decide_eq_true_eq] at hm
    obtain ⟨h1, h2⟩ := hm
    by_cases hk : k' = gk r
    · simp only [AggMap.step, if_pos hk, List.all_cons, Bool.and_eq_true,
        decide_eq_true_eq]
      exact ⟨h1, h2⟩
    · simp only [AggMap.step, if_neg hk, List.all_cons, Bool.and_eq_true,
        decide_eq_true_eq]
      exact ⟨h1, ih h2⟩

lemma keysDistinct_step (gk : Row → GroupKey) (aggs : List Aggregate) (m : AggMap)
    (r : Row) (h : keysDistinct m = true) : keysDistinct (AggMap.step gk aggs m r) = true := by
  induction m with
  | nil => simp [AggMap.step, keysDistinct]
  | cons e rest ih =>
    obtain ⟨k', ss⟩ := e
    simp only [keysDistinct, Bool.and_eq_true] at h
    obtain ⟨h1, h2⟩ := h
    by_cases hk : k' = gk r
    · simp only [AggMap.step, hk, if_pos rfl]
      simp only [keysDistinct, Bool.and_eq_true]
      rw [← hk]
      exact ⟨h1, h2⟩
    · have hr : gk r ≠ k' := fun hc => hk hc.symm
      simp only [AggMap.step, if_neg hk]
      simp only [keysDistinct, Bool.and_eq_true]
      exact ⟨step_all gk aggs rest r k' h1 hr, ih h2⟩

lemma keysDistinct_chunkAgg_aux (gk : Row → GroupKey) (aggs : List Aggregate)
    (rows : List Row) (m : AggMap) (h : keysDistinct m = true) :
    keysDistinct (rows.foldl (AggMap.step gk aggs) m) = true := by
  induction rows generalizing m with
  | nil => exact h
  | cons r rows ih => exact ih (AggMap.step gk aggs m r) (keysDistinct_step gk aggs m r h)

lemma keysDistinct_chunkAgg (gk : Row → GroupKey) (aggs : List Aggregate)
    (rows : List Row) : keysDistinct (chunkAgg gk aggs rows) = true :=
  keysDistinct_chunkAgg_aux gk aggs rows [] rfl

lemma mergeEntry_all (m : AggMap) (e : GroupKey × AggStates) (k : GroupKey)
    (hm : m.all (fun x => decide (x.1 ≠ k)) = true) (he : e.1 ≠ k) :
    (AggMap.mergeEntry m e).all (fun x => decide (x.1 ≠ k)) = true := by
  induction m with
  | nil => simp [AggMap.mergeEntry, he]
  | cons x rest ih =>
    obtain ⟨k', ss⟩ := x
    simp only [List.all_cons, Bool.and_eq_true, decide_eq_true_eq] at hm
    obtain ⟨h1, h2⟩ := hm
    by_cases hk : k' = e.1
    · simp only [AggMap.mergeEntry, if_pos hk, List.all_cons, Bool.and_eq_true,
        decide_eq_true_eq]
      exact ⟨h1, h2⟩
    · simp only [AggMap.mergeEntry, if_neg hk, List.all_cons, Bool.and_eq_true,
        decide_eq_true_eq]
      exact ⟨h1, ih h2⟩

lemma keysDistinct_mergeEntry (m : AggMap) (e : GroupKey × AggStates)
    (h : keysDistinct m = true) : keysDistinct (AggMap.mergeEntry m e) = true := by
  induction m with
  | nil => simp [AggMap.mergeEntry, keysDistinct]
  | cons x rest ih =>
    obtain ⟨k', ss⟩ := x
    simp only [keysDistinct, Bool.and_eq_true] at h
    obtain ⟨h1, h2⟩ := h
    by_cases hk : k' = e.1
    · simp only [AggMap.mergeEntry, if_pos hk]
      simp only [keysDistinct, Bool.and_eq_true]
      exact ⟨h1, h2⟩
    · have he : e.1 ≠ k' := fun hc => hk hc.symm
      simp only [AggMap.mergeEntry, if_neg hk]
      simp only [keysDistinct, Bool.and_eq_true]
      exact ⟨mergeEntry_all rest e k' h1 he, ih h2⟩

lemma keysDistinct_merge (m1 m2 : AggMap) (h : keysDistinct m1 = true) :
    keysDistinct (AggMap.merge m1 m2) = true := by
  induction m2 generalizing m1 with
  | nil => exact h
  | cons e rest ih =>
    have hunf : AggMap.merge m1 (e :: rest) =
        AggMap.merge (AggMap.mergeEntry m1 e) rest := rfl
    rw [hunf]
    exact ih (AggMap.mergeEntry m1 e) (keysDistinct_mergeEntry m1 e h)

lemma keysDistinct_foldl_merge (ms : List AggMap) (m0 : AggMap)
    (h : keysDistinct m0 = true) : keysDistinct (ms.foldl AggMap.merge m0) = true := by
  induction ms generalizing m0 with
  | nil => exact h
  | cons m ms ih => exact ih (AggMap.merge m0 m) (keysDistinct_merge m0 m h)

lemma afind_mem {κ α : Type} [DecidableEq κ] (m : List (κ × α)) (k : κ) (v : α)
    (h : afind m k = some v) : (k, v) ∈ m := by
  induction m with
  | nil => exact nomatch h
  | cons e rest ih =>
    obtain ⟨k', v'⟩ := e
    by_cases hk : k' = k
    · subst hk
      rw [show afind ((k', v') :: rest) k' = some v' from by simp [afind]] at h
      obtain rfl : v' = v := by injection h
      exact List.mem_cons_self _ _
    · simp only [afind, if_neg hk] at h
      exact List.mem_cons_of_mem _ (ih h)

lemma minTimeOf_le (rows : List Row) (r : Row) (h : r ∈ rows) :
    ∃ mn, minTimeOf rows = some mn ∧ mn ≤ r.time := by
  induction rows with
  | nil => exact absurd h (List.not_mem_nil r)
  | cons x rest ih =>
    rcases List.mem_cons.mp h with heq | hmem
    · subst heq
      cases hm : minTimeOf rest with
      | none => exact ⟨r.time, by simp [minTimeOf, hm], le_refl _⟩
      | some m => exact ⟨min r.time m, by simp [minTimeOf, hm], min_le_left _ _⟩
    · obtain ⟨mn, hmn, hle⟩ := ih hmem
      refine ⟨min x.time mn, ?_, le_trans (min_le_right _ _) hle⟩
      simp [minTimeOf, hmn]

lemma maxTimeOf_ge (rows : List Row) (r : Row) (h : r ∈ rows) :
    ∃ mx, maxTimeOf rows = some mx ∧ r.time ≤ mx := by
  induction rows with
  | nil => exact absurd h (List.not_mem_nil r)
  | cons x rest ih =>
    rcases List.mem_cons.mp h with heq | hmem
    · subst heq
      cases hm : maxTimeOf rest with
      | none => exact ⟨r.time, by simp [maxTimeOf, hm], le_refl _⟩
      | some m => exact ⟨max r.time m, by simp [maxTimeOf, hm], le_max_left _ _⟩
    · obtain ⟨mx, hmx, hle⟩ := ih hmem
      refine ⟨max x.time mx, ?_, le_trans hle (le_max_right _ _)⟩
      simp [maxTimeOf, hmx]

lemma chunkSurvivors_nil_of_not_overlaps (c : Chunk) (table : String) (lo hi : Int)
    (preds : List Predicate) (h : c.overlapsRange lo hi = false) :
    chunkSurvivors c table lo hi preds = [] := by
  unfold chunkSurvivors
  cases hf : afind c.tables table with
  | none => rfl
  | some t =>
    rw [List.filter_eq_nil_iff]
    intro r hr
    have hmem : r ∈ c.allRows := by
      unfold Chunk.allRows
      rw [List.mem_flatten]
      exact ⟨t.rows, List.mem_map.mpr ⟨(table, t), afind_mem c.tables table t hf, rfl⟩, hr⟩
    obtain ⟨mn, hmn, hle1⟩ := minTimeOf_le c.allRows r hmem
    obtain ⟨mx, hmx, hle2⟩ := maxTimeOf_ge c.allRows r hmem
    unfold Chunk.overlapsRange at h
    rw [show c.minTime = some mn from hmn, show c.maxTime = some mx from hmx] at h
    simp only [Bool.and_eq_false_iff, decide_eq_false_iff_not, not_le, not_lt] at h
    unfold rowPasses
    simp only [Bool.and_eq_true, decide_eq_true_eq, not_and]
    intro hpass
    rcases h with h | h
    · omega
    · omega

lemma flatten_map_filter {α β : Type} (l : List α) (p : α → Bool) (f : α → List β)
    (h : ∀ x ∈ l, p x = false → f x = []) :
    (((l.filter p).map f)).flatten = ((l.map f)).flatten := by
  induction l with
  | nil => rfl
  | cons x l ih =>
    cases hp : p x with
    | true =>
      simp only [List.filter_cons, hp, if_true, List.map_cons, List.flatten_cons]
      rw [ih (fun y hy hpy => h y (List.mem_cons_of_mem x hy) hpy)]
    | false =>
      have hx : f x = [] := h x (List.mem_cons_self x l) hp
      simp only [List.filter_cons, hp, Bool.false_eq_true, if_false, List.map_cons,
        List.flatten_cons, hx, List.nil_append]
      exact ih (fun y hy hpy => h y (List.mem_cons_of_mem x hy) hpy)

lemma foldl_merge_skip (l : List Chunk) (p : Chunk → Bool) (f : Chunk → AggMap)
    (m0 : AggMap) (h : ∀ c ∈ l, p c = false → f c = []) :
    (((l.filter p).map f)).foldl AggMap.merge m0 = ((l.map f)).foldl AggMap.merge m0 := by
  induction l generalizing m0 with
  | nil => rfl
  | cons c l ih =>
    cases hp : p c with
    | true =>
      simp only [List.filter_cons, hp, if_true, List.map_cons, List.foldl_cons]
      exact ih (AggMap.merge m0 (f c)) (fun y hy hpy => h y (List.mem_cons_of_mem c hy) hpy)
    | false =>
      have hc : f c = [] := h c (List.mem_cons_self c l) hp
      simp only [List.filter_cons, hp, Bool.false_eq_true, if_false, List.map_cons,
        List.foldl_cons, hc]
      rw [show AggMap.merge m0 [] = m0 from rfl]
      exact ih m0 (fun y hy hpy => h y (List.mem_cons_of_mem c hy) hpy)

lemma find_aggCore (db : Database) (table : String) (tr : Int × Int)
    (preds : List Predicate) (gk : Row → GroupKey) (aggs : List Aggregate) (k : GroupKey) :
    (aggCore db table tr preds gk aggs).find k =
      singlePass gk aggs (db.survivors table tr.1 tr.2 preds) k := by
  unfold aggCore
  rw [find_foldl_merge _ _ _ (by
    intro m hm
    obtain ⟨c, _, rfl⟩ := List.mem_map.mp hm
    exact keysDistinct_chunkAgg gk aggs _)]
  rw [List.foldl_map]
  simp only [find_chunkAgg]
  rw [show (AggMap.find [] k) = (none : Option AggStates) from rfl]
  rw [show (none : Option AggStates) =
    singlePass gk aggs [] k from rfl]
  rw [show (db.candidates tr.1 tr.2).foldl
      (fun s c => mergeOptStates s
        (singlePass gk aggs (chunkSurvivors c table tr.1 tr.2 preds) k))
      (singlePass gk aggs [] k) =
    ((db.candidates tr.1 tr.2).map
        (fun c => chunkSurvivors c table tr.1 tr.2 preds)).foldl
      (fun s rows => mergeOptStates s (singlePass gk aggs rows k))
      (singlePass gk aggs [] k) from
    (List.foldl_map (fun c => chunkSurvivors c table tr.1 tr.2 preds)
      (fun s rows => mergeOptStates s (singlePass gk aggs rows k))
      (db.candidates tr.1 tr.2) (singlePass gk aggs [] k)).symm]
  rw [foldl_mergeOpt_singlePass gk aggs k _ []]
  rw [List.nil_append]
  unfold Database.survivors Database.candidates
  rw [flatten_map_filter _ _ _ (fun c _ hc =>
    chunkSurvivors_nil_of_not_overlaps c table tr.1 tr.2 preds hc)]

lemma merge_firstv_keep_left (ts1 v1 ts2 v2 : Int) (h : ts1 < ts2) :
    (AggState.firstv ts1 v1).merge (.firstv ts2 v2) = .firstv ts1 v1 := by
  simp only [AggState.merge]
  rw [if_neg (by omega : ¬ (ts2 < ts1 ∨ (ts2 = ts1 ∧ v2 < v1)))]

lemma merge_firstv_keep_right (ts1 v1 ts2 v2 : Int) (h : ts1 < ts2) :
    (AggState.firstv ts2 v2).merge (.firstv ts1 v1) = .firstv ts1 v1 := by
  simp only [AggState.merge]
  rw [if_pos (Or.inl h)]

lemma merge_lastv_keep_right (ts1 v1 ts2 v2 : Int) (h : ts1 < ts2) :
    (AggState.lastv ts1 v1).merge (.lastv ts2 v2) = .lastv ts2 v2 := by
  simp only [AggState.merge]
  rw [if_pos (Or.inl h)]

lemma merge_lastv_keep_left (ts1 v1 ts2 v2 : Int) (h : ts1 < ts2) :
    (AggState.lastv ts2 v2).merge (.lastv ts1 v1) = .lastv ts2 v2 := by
  simp only [AggState.merge]
  rw [if_neg (by omega : ¬ (ts2 < ts1 ∨ (ts2 = ts1 ∧ v2 < v1)))]

lemma merge_firstv_comm (ts1 v1 ts2 v2 : Int) :
    (AggState.firstv ts1 v1).merge (.firstv ts2 v2) =
      (AggState.firstv ts2 v2).merge (.firstv ts1 v1) := by
  simp only [AggState.merge]
  split_ifs <;> first | rfl | (simp only [AggState.firstv.injEq]; omega)

lemma merge_lastv_comm (ts1 v1 ts2 v2 : Int) :
    (AggState.lastv ts1 v1).merge (.lastv ts2 v2) =
      (AggState.lastv ts2 v2).merge (.lastv ts1 v1) := by
  simp only [AggState.merge]
  split_ifs <;> first | rfl | (simp only [AggState.lastv.injEq]; omega)

lemma merge_singleton (k : GroupKey) (a b : AggState) :
    AggMap.merge [(k, [some a])] [(k, [some b])] = [(k, [some (a.merge b)])] := by
  simp [AggMap.merge, AggMap.mergeEntry, mergeStates]

end Lemmas

/-- Two-chunk scenario database from the claim: chunk 1 holds a row
host=serverA, value=5 at t=10; chunk 2 holds a row host=serverA, value=7
at t=20 (a backfill). -/
def twoChunkDb : Database :=
  { chunks :=
      [ ("c1", { tables := [("cpu", { rows :=
          [{ time := 10, tags := [("host", "serverA")], fields := [("value", 5)] }] })] }),
        ("c2", { tables := [("cpu", { rows :=
          [{ time := 20, tags := [("host", "serverA")], fields := [("value", 7)] }] })] }) ],
    size := 0 }

/-- C1: `Database::aggregate` merges per-chunk partial aggregate states:
the output map has exactly one entry per distinct group key, and for every
group key its merged state vector equals the one obtained by aggregating
all surviving rows of that key in a single pass; in particular, on the
two-chunk scenario with values 5 and 7 for host=serverA it returns the one
row host=serverA with sum 12. -/
theorem claim_C1 :
    (∀ (db : Database) (table : String) (tr : Int × Int) (preds : List Predicate)
      (groupColumns : List String) (aggs : List Aggregate),
      db.aggregate table tr preds groupColumns aggs =
        some (aggCore db table tr preds (plainKey groupColumns) aggs) ∧
      keysDistinct (aggCore db table tr preds (plainKey groupColumns) aggs) = true ∧
      (∀ k : GroupKey,
        (aggCore db table tr preds (plainKey groupColumns) aggs).find k =
          singlePass (plainKey groupColumns) aggs
            (db.survivors table tr.1 tr.2 preds) k)) ∧
    twoChunkDb.aggregate "cpu" (0, 60000000000) [] ["host"]
        [("value", AggregateType.Sum)] =
      some [((["serverA"], none), [some (AggState.sum 12)])] := by
  refine ⟨fun db table tr preds groupColumns aggs => ⟨rfl, ?_, ?_⟩, ?_⟩
  · unfold aggCore
    exact keysDistinct_foldl_merge _ [] rfl
  · intro k
    exact find_aggCore db table tr preds (plainKey groupColumns) aggs k
  · rfl

/-- C2: when merging two chunks' First (resp. Last) candidates for the
same group key, the merged result is the candidate with the smaller
(resp. larger) carried timestamp, and the result does not depend on the
merge order. -/
theorem claim_C2 (k : GroupKey) (ts1 v1 ts2 v2 : Int) :
    (ts1 < ts2 →
      AggMap.merge [(k, [some (AggState.firstv ts1 v1)])]
          [(k, [some (AggState.firstv ts2 v2)])] =
        [(k, [some (AggState.firstv ts1 v1)])] ∧
      AggMap.merge [(k, [some (AggState.firstv ts2 v2)])]
          [(k, [some (AggState.firstv ts1 v1)])] =
        [(k, [some (AggState.firstv ts1 v1)])] ∧
      AggMap.merge [(k, [some (AggState.lastv ts1 v1)])]
          [(k, [some (AggState.lastv ts2 v2)])] =
        [(k, [some (AggState.lastv ts2 v2)])] ∧
      AggMap.merge [(k, [some (AggState.lastv ts2 v2)])]
          [(k, [some (AggState.lastv ts1 v1)])] =
        [(k, [some (AggState.lastv ts2 v2)])]) ∧
    AggMap.merge [(k, [some (AggState.firstv ts1 v1)])]
        [(k, [some (AggState.firstv ts2 v2)])] =
      AggMap.merge [(k, [some (AggState.firstv ts2 v2)])]
        [(k, [some (AggState.firstv ts1 v1)])] ∧
    AggMap.merge [(k, [some (AggState.lastv ts1 v1)])]
        [(k, [some (AggState.lastv ts2 v2)])] =
      AggMap.merge [(k, [some (AggState.lastv ts2 v2)])]
        [(k, [some (AggState.lastv ts1 v1)])] := by
  refine ⟨fun h => ⟨?_, ?_, ?_, ?_⟩, ?_, ?_⟩
  · rw [merge_singleton, merge_firstv_keep_left ts1 v1 ts2 v2 h]
  · rw [merge_singleton, merge_firstv_keep_right ts1 v1 ts2 v2 h]
  · rw [merge_singleton, merge_lastv_keep_right ts1 v1 ts2 v2 h]
  · rw [merge_singleton, merge_lastv_keep_left ts1 v1 ts2 v2 h]
  · rw [merge_singleton, merge_singleton, merge_firstv_comm]
  · rw [merge_singleton, merge_singleton, merge_lastv_comm]

/-- Witness for C2 at timestamps 1 < 2: the First merge keeps the
timestamp-1 candidate in both merge orders and is order-independent. -/
theorem claim_C2_witness :
    AggMap.merge [((["h"], none), [some (AggState.firstv 1 5)])]
        [((["h"], none), [some (AggState.firstv 2 7)])] =
      [((["h"], none), [some (AggState.firstv 1 5)])] ∧
    AggMap.merge [((["h"], none), [some (AggState.firstv 2 7)])]
        [((["h"], none), [some (AggState.firstv 1 5)])] =
      [((["h"], none), [some (AggState.firstv 1 5)])] ∧
    AggMap.merge [((["h"], none), [some (AggState.lastv 1 5)])]
        [((["h"], none), [some (AggState.lastv 2 7)])] =
      [((["h"], none), [some (AggState.lastv 2 7)])] := by
  have h := claim_C2 (["h"], none) 1 5 2 7
  exact ⟨(h.1 (by norm_num)).1, (h.1 (by norm_num)).2.1, (h.1 (by norm_num)).2.2.1⟩

/-- Written from the claim: `select` computed by scanning every chunk and
filtering its rows, with no chunk-level time-range pruning. -/
def Database.selectScanAll (db : Database) (table : String) (timeRange : Int × Int)
    (preds : List Predicate) (selectColumns : List String) :
    Option (List (List (Option Scalar))) :=
  some ((((db.chunks.map Prod.snd)).map
    (fun c => (chunkSurvivors c table timeRange.1 timeRange.2 preds).map
      (fun r => selectColumns.map r.colScalar))).flatten)

/-- Written from the claim: `aggregate` computed by scanning every chunk
and filtering its rows, with no chunk-level time-range pruning. -/
def Database.aggregateScanAll (db : Database) (table : String) (timeRange : Int × Int)
    (preds : List Predicate) (groupColumns : List String) (aggs : List Aggregate) :
    Option AggMap :=
  some ((((db.chunks.map Prod.snd)).map
    (fun c => chunkAgg (plainKey groupColumns) aggs
      (chunkSurvivors c table timeRange.1 timeRange.2 preds))).foldl AggMap.merge [])

/-- C5: a chunk whose aggregate time range does not intersect the query
range contributes zero surviving rows, so `Database::select` and
`Database::aggregate`, which skip such chunks, return results identical to
scanning every chunk and filtering its rows. -/
theorem claim_C5 (db : Database) (table : String) (tr : Int × Int)
    (preds : List Predicate) (cols groupColumns : List String) (aggs : List Aggregate) :
    db.select table tr preds cols = db.selectScanAll table tr preds cols ∧
    db.aggregate table tr preds groupColumns aggs =
      db.aggregateScanAll table tr preds groupColumns aggs ∧
    (db.chunks.map Prod.snd).all
      (fun c => c.overlapsRange tr.1 tr.2 ||
        (chunkSurvivors c table tr.1 tr.2 preds).isEmpty) = true := by
  refine ⟨?_, ?_, ?_⟩
  · unfold Database.select Database.selectScanAll Database.candidates
    rw [flatten_map_filter _ _ _ (fun c _ hc => by
      rw [chunkSurvivors_nil_of_not_overlaps c table tr.1 tr.2 preds hc]
      rfl)]
  · unfold Database.aggregate aggCore Database.aggregateScanAll Database.candidates
    rw [foldl_merge_skip _ _ _ [] (fun c _ hc => by
      rw [chunkSurvivors_nil_of_not_overlaps c table tr.1 tr.2 preds hc]
      rfl)]
  · rw [List.all_eq_true]
    intro c hc
    cases hov : c.overlapsRange tr.1 tr.2 with
    | true => rfl
    | false =>
      rw [chunkSurvivors_nil_of_not_overlaps c table tr.1 tr.2 preds hov]
      rfl

/-- Scenario database from the claim: one chunk with rows at t=10
(value 5) and t=70000000000 (value 7), both with group key host=serverA. -/
def windowDb : Database :=
  { chunks :=
      [ ("c1", { tables := [("cpu", { rows :=
          [ { time := 10, tags := [("host", "serverA")], fields := [("value", 5)] },
            { time := 70000000000, tags := [("host", "serverA")],
              fields := [("value", 7)] } ] })] }) ],
    size := 0 }

/-- C6: `Database::aggregate_window` behaves like `aggregate` except each
surviving row's group key is extended with the window start
`time - (time mod window)`; a non-positive window is an error; with a one
minute window, rows at t=10 and t=70000000000 sharing a tag key yield two
output rows with window starts 0 and 60000000000. -/
theorem claim_C6 :
    (∀ (db : Database) (table : String) (tr : Int × Int) (preds : List Predicate)
      (groupColumns : List String) (aggs : List Aggregate) (window : Int),
      db.aggregate_window table tr preds groupColumns aggs window =
        if window ≤ 0 then none
        else some (aggCore db table tr preds
          (fun r => ((plainKey groupColumns r).1, some (r.time - r.time % window)))
          aggs)) ∧
    (∀ (db : Database) (table : String) (tr : Int × Int) (preds : List Predicate)
      (groupColumns : List String) (aggs : List Aggregate),
      db.aggregate table tr preds groupColumns aggs =
        some (aggCore db table tr preds (plainKey groupColumns) aggs)) ∧
    windowDb.aggregate_window "cpu" (0, 120000000000) [] ["host"]
        [("value", AggregateType.Sum)] 60000000000 =
      some [ ((["serverA"], some 0), [some (AggState.sum 5)]),
             ((["serverA"], some 60000000000), [some (AggState.sum 7)]) ] ∧
    windowDb.aggregate_window "cpu" (0, 120000000000) [] ["host"]
        [("value", AggregateType.Sum)] 0 = none := by
  exact ⟨fun _ _ _ _ _ _ _ => rfl, fun _ _ _ _ _ _ => rfl, rfl, rfl⟩

/-- C7: for every pair of signed integers (lo, hi), `time_range_predicate`
returns exactly the predicates `(time, (GTE, lo))` and `(time, (LT, hi))`
in that order, and a row satisfies both of them if and only if
`lo ≤ time ∧ time < hi`, so a row with `time = lo` is included and a row
with `time = hi` is excluded. -/
theorem claim_C7 (lo hi : Int) :
    time_range_predicate lo hi =
      [ (TIME_COLUMN_NAME, (Operator.GTE, Value.Scalar (Scalar.I64 lo))),
        (TIME_COLUMN_NAME, (Operator.LT, Value.Scalar (Scalar.I64 hi))) ] ∧
    ∀ r : Row, ((time_range_predicate lo hi).all (satisfiesP r) = true ↔
      (lo ≤ r.time ∧ r.time < hi)) := by
  refine ⟨rfl, fun r => ?_⟩
  simp [time_range_predicate, satisfiesP, Row.colScalar, Scalar.cmpWith]

/-- C8: after `Store::add_database(id, database)` the store's map sends
`id` to the given database (replacing any previous binding), and the
store's size is its previous size plus `database.size()`. -/
theorem claim_C8 (s : Store) (id : String) (database : Database) :
    afind (s.add_database id database).databases id = some database ∧
    (s.add_database id database).size = s.size + database.size := by
  exact ⟨afind_ainsert_self s.databases id database, rfl⟩

/-- C9: `Store::remove_database(id)` fails with NotFound when `id` is
absent, and otherwise removes the database stored under `id`, subtracts
its size from the running total, and leaves every other binding unchanged. -/
theorem claim_C9 (s : Store) (id : String) :
    (afind s.databases id = none → s.remove_database id = .error .NotFound) ∧
    (∀ db : Database, afind s.databases id = some db →
      ∃ s' : Store, s.remove_database id = .ok s' ∧
        afind s'.databases id = none ∧
        (∀ k : String, k ≠ id → afind s'.databases k = afind s.databases k) ∧
        s'.size = s.size - db.size) := by
  constructor
  · intro h
    simp [Store.remove_database, h]
  · intro db h
    refine ⟨{ databases := aremove s.databases id, size := s.size - db.size },
      by simp [Store.remove_database, h], ?_, ?_, rfl⟩
    · exact afind_aremove_self s.databases id
    · intro k hk
      exact afind_aremove_other s.databases id k hk

/-- Witness for C9 at concrete stores: removal of an absent id fails with
NotFound, and removal of a present id removes exactly that binding and
debits its size. -/
theorem claim_C9_witness :
    (Store.new.remove_database "a" = .error .NotFound) ∧
    (∃ s' : Store,
      (Store.new.add_database "b" ⟨[], 7⟩).remove_database "b" = .ok s' ∧
      afind s'.databases "b" = none ∧
      (∀ k : String, k ≠ "b" →
        afind s'.databases k = afind (Store.new.add_database "b" ⟨[], 7⟩).databases k) ∧
      s'.size = (Store.new.add_database "b" ⟨[], 7⟩).size - 7) := by
  constructor
  · exact (claim_C9 Store.new "a").1 rfl
  · exact (claim_C9 (Store.new.add_database "b" ⟨[], 7⟩) "b").2 ⟨[], 7⟩ rfl

/-- C10: a freshly constructed store has an empty databases map and size
0, and each of the six query operations returns `None` for every choice
of arguments. -/
theorem claim_C10 :
    Store.new.databases = [] ∧ Store.new.size = 0 ∧
    (∀ dbn tn tr preds cols, Store.new.select dbn tn tr preds cols = none) ∧
    (∀ dbn tn tr preds g a, Store.new.aggregate dbn tn tr preds g a = none) ∧
    (∀ dbn tn tr preds g a w, Store.new.aggregate_window dbn tn tr preds g a w = none) ∧
    (∀ dbn tr preds, Store.new.table_names dbn tr preds = none) ∧
    (∀ dbn tn tr preds, Store.new.tag_keys dbn tn tr preds = none) ∧
    (∀ dbn tn tr preds keys, Store.new.tag_values dbn tn tr preds keys = none) := by
  refine ⟨rfl, rfl, ?_, ?_, ?_, ?_, ?_, ?_⟩ <;> intros <;> rfl

/-- C4 fails on the code: adding a database twice under the same id leaves
the store's size field at 10 although the databases in its map total 5,
because `Store::add_database` adds the incoming size without subtracting
the size of the binding it replaces. -/
theorem claim_C4_bug :
    ((Store.new.add_database "a" ⟨[], 5⟩).add_database "a" ⟨[], 5⟩).size = 10 ∧
    sizesTotal ((Store.new.add_database "a" ⟨[], 5⟩).add_database "a" ⟨[], 5⟩).databases = 5 := by
  exact ⟨rfl, rfl⟩

end ReadBuffer
